import Mathlib

/-!
Verification development for the `cyclo` repository (Rust): a per-file
cyclomatic-complexity analyzer for C/C++ source trees.

The embedding models:
* `src/cyclo/src/file_parser.rs`: the complexity engine
  (`parse_compound_statement`, `get_file_complexity`), extension dispatch
  (`is_file_extension_valid`, `get_file_extension`), and `file_walk`;
* `src/cyclo/src/main.rs`: the aggregation loop building the four parallel
  vectors (nlocs, labels, parents, ccs), the directory-placeholder loop,
  and the mean-complexity (`cmid`) computation.

Modelling conventions:
* tree-sitter syntax nodes become the inductive `SyntaxNode` (a node kind
  string plus an ordered list of children, exactly the interface the Rust
  code consumes: `Node::kind` and `Node::children`);
* `u64` counters become `Nat` (the Rust code only increments, so no
  overflow wrapping is exercised within `u64` range);
* `f64` values are exact in the runs modelled here: every complexity value
  is a `u64` cast to `f64` (exact below 2^53) or the literal `0.0`, so
  complexity values are carried as `Nat`; the one genuine `f64` division
  (the `cmid` mean) is modelled over `ℚ` by `f64Div`, which returns `none`
  exactly when the denominator is zero (in IEEE terms, when the division
  does not produce a well-defined finite number, i.e. NaN for 0.0/0.0);
* Rust `str::ends_with` is modelled character-exactly by `ends_with`;
* the walkdir traversal is modelled as a list of directory entries, each
  carrying its absolute path split on "/" (the Rust code immediately
  splits paths on "/"), its walkdir depth, its parsed syntax tree, and the
  tokei line count (both produced by external collaborators);
* filesystem reads, parser-grammar loading and file writes are external
  effects and not modelled; the pure record-building logic is.
-/

namespace Cyclo

/-- A tree-sitter syntax node: a kind tag and ordered children. -/
inductive SyntaxNode where
  | mk (kind : String) (children : List SyntaxNode)

def SyntaxNode.kind : SyntaxNode → String
  | .mk k _ => k

def SyntaxNode.children : SyntaxNode → List SyntaxNode
  | .mk _ cs => cs

@[simp] theorem SyntaxNode.kind_mk (k : String) (cs : List SyntaxNode) :
    (SyntaxNode.mk k cs).kind = k := rfl

@[simp] theorem SyntaxNode.children_mk (k : String) (cs : List SyntaxNode) :
    (SyntaxNode.mk k cs).children = cs := rfl

/-- Model of Rust `str::ends_with`: suffix test on the character sequence. -/
def ends_with (file ext : String) : Bool := ext.data.isSuffixOf file.data

/-- From `file_parser.rs`, `is_file_extension_valid`: the extension filter. -/
def is_file_extension_valid (file : String) : Bool :=
  [".c", ".cpp", ".cc", ".cxx"].any fun n => ends_with file n

/-- From `file_parser.rs`, `parse_compound_statement`: the decision-statement
kinds, taken verbatim from the source. -/
def decision_statements : List String :=
  ["if_statement", "for_statement", "while_statement",
   "switch_statement", "break_statement", "goto_statement"]

/-- The two innermost loops of `parse_compound_statement`: scan the children
of a `parenthesized_expression` node for `binary_expression` nodes, and count
their direct children whose kind is the literal operator token && or ||. -/
def paren_ops (cs : List SyntaxNode) : Nat :=
  cs.foldl (fun acc node3 =>
    if node3.kind == "binary_expression" then
      node3.children.foldl (fun acc2 node4 =>
        if node4.kind == "&&" || node4.kind == "||" then acc2 + 1 else acc2) acc
    else acc) 0

mutual

/-- From `file_parser.rs`, `parse_compound_statement`: the recursive block
complexity. `pcs_children` is the outer `for node in root_node.children`
loop and `pcs_grandchildren` the inner `for node2 in node.children` loop,
each loop body contributing its increments to the accumulator. -/
def parse_compound_statement : SyntaxNode → Nat
  | .mk _ cs => pcs_children cs

/-- Outer loop of `parse_compound_statement` over the block's children. -/
def pcs_children : List SyntaxNode → Nat
  | [] => 0
  | .mk k gs :: rest =>
      (if decision_statements.any (fun n => n == k) then 1 else 0)
      + pcs_grandchildren gs
      + pcs_children rest

/-- Inner loop of `parse_compound_statement` over one child's children. -/
def pcs_grandchildren : List SyntaxNode → Nat
  | [] => 0
  | node2 :: rest =>
      (if node2.kind == "compound_statement" then parse_compound_statement node2 else 0)
      + (if node2.kind == "parenthesized_expression" then paren_ops node2.children else 0)
      + pcs_grandchildren rest

end

/-- The per-function loop inside `get_file_complexity`: accumulate the
complexity of each `compound_statement` child of a function definition. -/
def func_complexity (cs : List SyntaxNode) : Nat :=
  cs.foldl (fun complexity node2 =>
    if node2.kind == "compound_statement"
    then complexity + parse_compound_statement node2 else complexity) 0

/-- The `func_complexities` vector built by `get_file_complexity`: one entry
per `function_definition` child of the tree root. -/
def func_complexities (root : SyntaxNode) : List Nat :=
  root.children.foldl (fun acc node =>
    if node.kind == "function_definition"
    then acc ++ [func_complexity node.children] else acc) []

/-- From `file_parser.rs`, `get_file_complexity` (tree part): the value
returned for a parsed tree is the sum of the `func_complexities` vector. -/
def get_file_complexity (root : SyntaxNode) : Nat :=
  (func_complexities root).sum

/-- From `file_parser.rs`, `get_file_extension`: language tag from the
filename. -/
def get_file_extension (filename : String) : String :=
  if ends_with filename ".c" then "c"
  else if is_file_extension_valid filename then "cpp"
  else ""

/-- One directory entry handed to `FileParser::new`: the absolute path split
on "/" (last component is the file name), the walkdir depth, and the results
of the two external collaborators (tree-sitter parse tree, tokei line
count). -/
structure Entry where
  comps : List String
  depth : Nat
  tree : SyntaxNode
  nloc : Nat

/-- `DirEntry::file_name`: the last path component. -/
def Entry.filename (e : Entry) : String := e.comps.getLastD ""

/-- From `file_parser.rs`, `get_file_complexity` (full): `None` when the
extension resolves to no grammar, otherwise the tree complexity. -/
def get_file_complexity_opt (e : Entry) : Option Nat :=
  match get_file_extension (Entry.filename e) with
  | "c" => some (get_file_complexity e.tree)
  | "cpp" => some (get_file_complexity e.tree)
  | _ => none

/-- From `file_parser.rs`, `get_file_nloc`: `None` when the extension
resolves to no language, otherwise the tokei code-line count. -/
def get_file_nloc (e : Entry) : Option Nat :=
  match get_file_extension (Entry.filename e) with
  | "c" => some e.nloc
  | "cpp" => some e.nloc
  | _ => none

/-- From `file_parser.rs`, `FileParserError`. -/
inductive FileParserError where
  | badFileExtension (file : String)
deriving DecidableEq

/-- The fields of `FileParser` that `file_walk` fills in on success. -/
structure FileRec where
  cc : Nat
  nloc : Nat
  label : String
  parent : String
deriving DecidableEq

/-- Model of Rust `Vec<&str>::join("/")`. -/
def joinSlash : List String → String
  | [] => ""
  | [x] => x
  | x :: xs => x ++ "/" ++ joinSlash xs

/-- From `file_parser.rs`, `file_walk`: compute complexity and nloc (failing
with `BadFileExtension` if either is `None`), then derive the label (path
components from index `len - depth - 1`, joined) and the parent (the same
with the filename popped). -/
def file_walk (e : Entry) : Except FileParserError FileRec :=
  match get_file_complexity_opt e with
  | none => .error (.badFileExtension (Entry.filename e))
  | some cc =>
    match get_file_nloc e with
    | none => .error (.badFileExtension (Entry.filename e))
    | some nloc =>
      let len := e.comps.length
      let label := joinSlash (e.comps.drop (len - e.depth - 1))
      let parent := joinSlash (e.comps.dropLast.drop (len - e.depth - 1))
      .ok ⟨cc, nloc, label, parent⟩

/-- The four parallel aggregation vectors of `main.rs`. -/
structure AggState where
  nlocs : List Nat
  labels : List String
  parents : List String
  ccs : List Nat
deriving DecidableEq

/-- From `main.rs`, the `for _ in 0..depth` placeholder loop: while the
candidate directory label (components from `start` of the current
`full_path`, joined) is absent from `labels`, append a zero-valued record
for it and pop one component; when present, the iteration does nothing (in
particular it does not pop). -/
def placeholder_loop : Nat → Nat → List String → AggState → AggState
  | 0, _, _, st => st
  | k + 1, start, full_path, st =>
    if st.labels.contains (joinSlash (full_path.drop start)) then
      placeholder_loop k start full_path st
    else
      placeholder_loop k start full_path.dropLast
        ⟨st.nlocs ++ [0],
         st.labels ++ [joinSlash (full_path.drop start)],
         st.parents ++ [if full_path.dropLast.isEmpty then ""
                        else joinSlash (full_path.dropLast.drop start)],
         st.ccs ++ [0]⟩

/-- From `main.rs`, one iteration of the walker loop: skip entries whose
file name fails the extension filter; otherwise run `file_walk`, on success
push the record's four fields and run the placeholder loop (on error, log
and `continue`, which skips the placeholder loop as well). -/
def processEntry (st : AggState) (e : Entry) : AggState :=
  if is_file_extension_valid (Entry.filename e) then
    match file_walk e with
    | .error _ => st
    | .ok r =>
      placeholder_loop e.depth (e.comps.length - e.depth - 1) e.comps.dropLast
        ⟨st.nlocs ++ [r.nloc], st.labels ++ [r.label],
         st.parents ++ [r.parent], st.ccs ++ [r.cc]⟩
  else st

/-- The full walker loop of `main.rs`, starting from four empty vectors. -/
def runMain (es : List Entry) : AggState :=
  es.foldl processEntry ⟨[], [], [], []⟩

/-- Model of one `f64` division whose operands are exact: `none` stands for
the case where IEEE division does not yield a well-defined finite number
(`0.0 / 0.0 = NaN`; the code's numerator is always finite). -/
def f64Div (a b : ℚ) : Option ℚ := if b = 0 then none else some (a / b)

/-- From `main.rs`, the `cmid` written into the generated script: the sum of
the `ccs` vector divided by its length. -/
def cmid (st : AggState) : Option ℚ :=
  f64Div ((st.ccs.map fun c => ((Nat.cast c : ℚ))).sum) ((st.ccs.length : ℚ))

/-- The emitted records, read off row-wise from the four parallel vectors. -/
def zipRecords : List Nat → List Nat → List String → List String → List FileRec
  | cc :: ccs, n :: ns, l :: ls, p :: ps => ⟨cc, n, l, p⟩ :: zipRecords ccs ns ls ps
  | _, _, _, _ => []

/-- The record set described by an aggregation state. -/
def AggState.records (st : AggState) : List FileRec :=
  zipRecords st.ccs st.nlocs st.labels st.parents

/-! ## Specification-side definitions

These follow the spec's / claims' wording, to be compared with the source
embedding above. -/

/-- Per-function complexity as the spec's §4.1 contract states it: the sum of
`compute_block_complexity` over the function's `compound_statement` body
blocks. -/
def compute_function_complexity (n : SyntaxNode) : Nat :=
  ((n.children.filter fun c => c.kind == "compound_statement").map
    parse_compound_statement).sum

/-- The number of literal `&&` / `||` operator tokens among the direct
children of one node. -/
def count_op_tokens (b : SyntaxNode) : Nat :=
  (b.children.filter fun op => op.kind == "&&" || op.kind == "||").length

/-- Operator count contributed by one `parenthesized_expression`'s children,
as the claim words it: for each direct `binary_expression` child, 1 per
literal `&&` / `||` token among its direct children. -/
def paren_ops_spec (cs : List SyntaxNode) : Nat :=
  ((cs.filter fun b => b.kind == "binary_expression").map count_op_tokens).sum

mutual

/-- Block complexity exactly as claim C2 words it: number of direct children
of decision kind, plus recursive complexity of `compound_statement`
grandchildren, plus operator tokens found through the
`parenthesized_expression` → `binary_expression` → token chain. -/
def block_complexity_spec : SyntaxNode → Nat
  | .mk _ cs =>
      (cs.filter fun c => decide (c.kind ∈ decision_statements)).length
        + bcs_children cs

/-- Grandchild contributions of all children, for `block_complexity_spec`. -/
def bcs_children : List SyntaxNode → Nat
  | [] => 0
  | .mk _ gs :: rest => bcs_grandchildren gs + bcs_children rest

/-- Contribution of one child's grandchildren, for `block_complexity_spec`. -/
def bcs_grandchildren : List SyntaxNode → Nat
  | [] => 0
  | g :: rest =>
      (if g.kind == "compound_statement" then block_complexity_spec g else 0)
      + (if g.kind == "parenthesized_expression" then paren_ops_spec g.children else 0)
      + bcs_grandchildren rest

end

mutual

/-- Claim C3's reading of the File Analyzer: one engine invocation per
`function_definition` node found at any depth under the root, summed. -/
def any_depth_function_sum : SyntaxNode → Nat
  | .mk _ cs => adfs_list cs

/-- Sum of `compute_function_complexity` over every `function_definition`
in a forest, at any depth. -/
def adfs_list : List SyntaxNode → Nat
  | [] => 0
  | n :: rest =>
      (if n.kind == "function_definition" then compute_function_complexity n else 0)
      + any_depth_function_sum n + adfs_list rest

end

/-! ## Generic loop-accumulator lemmas -/

theorem foldl_push_filter {α β : Type} (p : α → Bool) (f : α → β) :
    ∀ (l : List α) (init : List β),
      l.foldl (fun acc x => if p x then acc ++ [f x] else acc) init
        = init ++ (l.filter p).map f
  | [], _ => by simp
  | x :: rest, init => by
      by_cases h : p x <;>
        simp [h, List.foldl_cons, foldl_push_filter p f rest, List.filter_cons]

theorem foldl_add_filter {α : Type} (p : α → Bool) (f : α → Nat) :
    ∀ (l : List α) (a : Nat),
      l.foldl (fun c x => if p x then c + f x else c) a
        = a + ((l.filter p).map f).sum
  | [], _ => by simp
  | x :: rest, a => by
      by_cases h : p x <;>
        simp [h, List.foldl_cons, foldl_add_filter p f rest, List.filter_cons,
              Nat.add_assoc]

theorem foldl_count {α : Type} (p : α → Bool) :
    ∀ (l : List α) (a : Nat),
      l.foldl (fun c x => if p x then c + 1 else c) a = a + (l.filter p).length
  | [], _ => by simp
  | x :: rest, a => by
      by_cases h : p x
      · simp [h, List.foldl_cons, foldl_count p rest, List.filter_cons]
        omega
      · simp [h, List.foldl_cons, foldl_count p rest, List.filter_cons]

theorem sum_map_ite {α : Type} (p : α → Bool) (f : α → Nat) :
    ∀ l : List α,
      (l.map fun x => if p x then f x else 0).sum = ((l.filter p).map f).sum
  | [] => by simp
  | x :: rest => by
      by_cases h : p x <;> simp [h, List.filter_cons, sum_map_ite p f rest]

/-! ## The engine agrees with the spec-side formulas -/

theorem any_beq_eq_mem_decide (k : String) (l : List String) :
    (l.any fun n => n == k) = decide (k ∈ l) := by
  by_cases h : k ∈ l
  · rw [decide_eq_true h]
    exact List.any_eq_true.mpr ⟨k, h, by simp⟩
  · rw [decide_eq_false h]
    exact List.any_eq_false.mpr fun x hx => by
      simp only [beq_iff_eq]
      rintro rfl
      exact h hx

theorem func_complexity_eq (cs : List SyntaxNode) :
    func_complexity cs
      = ((cs.filter fun c => c.kind == "compound_statement").map
          parse_compound_statement).sum := by
  unfold func_complexity
  rw [foldl_add_filter]
  simp

theorem func_complexities_eq (root : SyntaxNode) :
    func_complexities root
      = (root.children.filter fun n => n.kind == "function_definition").map
          (fun n => func_complexity n.children) := by
  unfold func_complexities
  rw [foldl_push_filter]
  simp

theorem get_file_complexity_eq (root : SyntaxNode) :
    get_file_complexity root
      = ((root.children.filter fun n => n.kind == "function_definition").map
          compute_function_complexity).sum := by
  unfold get_file_complexity
  rw [func_complexities_eq]
  congr 1
  exact List.map_congr_left fun n _ => func_complexity_eq n.children

theorem paren_ops_eq_spec (l : List SyntaxNode) : paren_ops l = paren_ops_spec l := by
  have gen : ∀ (l : List SyntaxNode) (a : Nat),
      l.foldl (fun acc node3 =>
        if node3.kind == "binary_expression" then
          node3.children.foldl (fun acc2 node4 =>
            if node4.kind == "&&" || node4.kind == "||" then acc2 + 1 else acc2) acc
        else acc) a = a + paren_ops_spec l := by
    intro l
    induction l with
    | nil => intro a; simp [paren_ops_spec]
    | cons x rest ih =>
        intro a
        rw [List.foldl_cons]
        by_cases h : (x.kind == "binary_expression") = true
        · rw [if_pos h, foldl_count, ih]
          unfold paren_ops_spec
          rw [List.filter_cons, if_pos h]
          simp [count_op_tokens, Nat.add_assoc]
        · rw [if_neg h, ih]
          unfold paren_ops_spec
          rw [List.filter_cons, if_neg h]
  unfold paren_ops
  rw [gen]
  simp

mutual

theorem pcs_eq_spec : ∀ n : SyntaxNode, parse_compound_statement n = block_complexity_spec n
  | .mk k cs => by
      simp only [parse_compound_statement, block_complexity_spec]
      exact pcs_children_eq_spec cs

theorem pcs_children_eq_spec : ∀ l : List SyntaxNode,
    pcs_children l
      = (l.filter fun c => decide (c.kind ∈ decision_statements)).length + bcs_children l
  | [] => by simp [pcs_children, bcs_children]
  | .mk k gs :: rest => by
      simp only [pcs_children, bcs_children]
      rw [pcs_children_eq_spec rest, pcs_grandchildren_eq_spec gs,
          List.filter_cons, any_beq_eq_mem_decide]
      by_cases h : k ∈ decision_statements <;> simp [h] <;> omega

theorem pcs_grandchildren_eq_spec : ∀ l : List SyntaxNode,
    pcs_grandchildren l = bcs_grandchildren l
  | [] => by simp only [pcs_grandchildren, bcs_grandchildren]
  | g :: rest => by
      simp only [pcs_grandchildren, bcs_grandchildren]
      rw [pcs_grandchildren_eq_spec rest, paren_ops_eq_spec]
      by_cases h : (g.kind == "compound_statement") = true
      · rw [if_pos h, if_pos h, pcs_eq_spec g]
      · rw [if_neg h, if_neg h]

end

/-! ## Extension dispatch and `file_walk` -/

theorem valid_of_ends_c {f : String} (h : ends_with f ".c" = true) :
    is_file_extension_valid f = true := by
  unfold is_file_extension_valid
  simp [List.any_cons, h]

theorem get_file_extension_of_valid {f : String}
    (h : is_file_extension_valid f = true) :
    get_file_extension f = "c" ∨ get_file_extension f = "cpp" := by
  unfold get_file_extension
  cases hc : ends_with f ".c"
  · right; simp [hc, h]
  · left; simp [hc]

theorem get_file_extension_of_invalid {f : String}
    (h : is_file_extension_valid f = false) :
    get_file_extension f = "" := by
  have hc : ends_with f ".c" = false := by
    cases hc : ends_with f ".c"
    · rfl
    · rw [valid_of_ends_c hc] at h
      exact absurd h (by simp)
  unfold get_file_extension
  simp [hc, h]

theorem get_file_complexity_opt_of_valid {e : Entry}
    (h : is_file_extension_valid (Entry.filename e) = true) :
    get_file_complexity_opt e = some (get_file_complexity e.tree) := by
  unfold get_file_complexity_opt
  rcases get_file_extension_of_valid h with h' | h' <;> rw [h'] <;> rfl

theorem get_file_nloc_of_valid {e : Entry}
    (h : is_file_extension_valid (Entry.filename e) = true) :
    get_file_nloc e = some e.nloc := by
  unfold get_file_nloc
  rcases get_file_extension_of_valid h with h' | h' <;> rw [h'] <;> rfl

theorem file_walk_of_valid {e : Entry}
    (h : is_file_extension_valid (Entry.filename e) = true) :
    file_walk e = Except.ok
      ⟨get_file_complexity e.tree, e.nloc,
       joinSlash (e.comps.drop (e.comps.length - e.depth - 1)),
       joinSlash (e.comps.dropLast.drop (e.comps.length - e.depth - 1))⟩ := by
  unfold file_walk
  rw [get_file_complexity_opt_of_valid h, get_file_nloc_of_valid h]

theorem file_walk_of_invalid {e : Entry}
    (h : is_file_extension_valid (Entry.filename e) = false) :
    file_walk e = Except.error (.badFileExtension (Entry.filename e)) := by
  unfold file_walk get_file_complexity_opt
  rw [get_file_extension_of_invalid h]
  rfl

theorem valid_false_of_file_walk_error {e : Entry} {err : FileParserError}
    (h : file_walk e = Except.error err) :
    is_file_extension_valid (Entry.filename e) = false := by
  cases hv : is_file_extension_valid (Entry.filename e)
  · rfl
  · rw [file_walk_of_valid hv] at h
    exact Except.noConfusion h

/-! ## Claims C1 to C5 -/

/-- C1: for every parsed file, the reported per-file complexity (the `cc`
field of the record `file_walk` produces) equals the unweighted sum of the
per-function complexities of the file's function definitions — no
per-function base offset, no normalization, no averaging. -/
theorem c1_file_cc_is_unweighted_sum (e : Entry) (r : FileRec)
    (h : file_walk e = Except.ok r) :
    r.cc = ((e.tree.children.filter fun n => n.kind == "function_definition").map
      compute_function_complexity).sum := by
  cases hv : is_file_extension_valid (Entry.filename e)
  · rw [file_walk_of_invalid hv] at h
    exact Except.noConfusion h
  · rw [file_walk_of_valid hv] at h
    injection h with h
    rw [← h]
    exact get_file_complexity_eq e.tree

/-- Tree for the C1 witness: one function whose body holds a single `if`. -/
def t1 : SyntaxNode :=
  .mk "translation_unit"
    [.mk "function_definition"
      [.mk "primitive_type" [],
       .mk "compound_statement" [.mk "\x7b" [], .mk "if_statement" [], .mk "\x7d" []]]]

def e1 : Entry := ⟨["m.c"], 0, t1, 2⟩

/-- Witness for C1 at a concrete entry. -/
theorem c1_witness :
    (⟨1, 2, "m.c", ""⟩ : FileRec).cc
      = ((e1.tree.children.filter fun n => n.kind == "function_definition").map
          compute_function_complexity).sum :=
  c1_file_cc_is_unweighted_sum e1 ⟨1, 2, "m.c", ""⟩ rfl

/-- C2: for every block node, `parse_compound_statement` returns exactly the
number of direct children of decision-statement kind, plus the recursive
complexity of every `compound_statement` grandchild, plus 1 for each `&&` or
`||` token that is a direct child of a `binary_expression` that is a direct
child of a `parenthesized_expression` grandchild — and nothing else, so
operators nested deeper than that exact chain contribute nothing. -/
theorem c2_block_complexity_formula (n : SyntaxNode) :
    parse_compound_statement n = block_complexity_spec n :=
  pcs_eq_spec n

/-- A function definition nested one level too deep for the engine (inside a
`preproc_ifdef` block), with one decision statement in its body. -/
def cexTree : SyntaxNode :=
  .mk "translation_unit"
    [.mk "preproc_ifdef"
      [.mk "#ifdef" [], .mk "identifier" [],
       .mk "function_definition"
         [.mk "primitive_type" [],
          .mk "compound_statement" [.mk "\x7b" [], .mk "if_statement" [], .mk "\x7d" []]],
       .mk "#endif" []]]

/-- Counterexample to C3 as stated: on `cexTree` the file complexity computed
by the code is 0, while the sum over function definitions at any depth is 1,
so the File Analyzer does not invoke the engine for function-definition
nodes at any depth. -/
theorem c3_counterexample_nested_function :
    get_file_complexity cexTree = 0 ∧ any_depth_function_sum cexTree = 1 :=
  ⟨rfl, rfl⟩

/-- C3 (amended): the File Analyzer invokes the Complexity Engine once per
function-definition node among the direct children of the tree root only,
summing their complexities into the file's total; function definitions at
greater depth are not visited. -/
theorem c3_amended_top_level_only (root : SyntaxNode) :
    get_file_complexity root
      = (root.children.map fun n =>
          if n.kind == "function_definition" then compute_function_complexity n
          else 0).sum := by
  rw [get_file_complexity_eq, sum_map_ite]

/-- The tree-sitter parse tree of a file whose content is exactly
`void f(){ if (x) { while(y || z) { } } }`. -/
def c4Tree : SyntaxNode :=
  .mk "translation_unit"
    [.mk "function_definition"
      [.mk "primitive_type" [],
       .mk "function_declarator"
         [.mk "identifier" [], .mk "parameter_list" [.mk "(" [], .mk ")" []]],
       .mk "compound_statement"
         [.mk "\x7b" [],
          .mk "if_statement"
            [.mk "if" [],
             .mk "parenthesized_expression"
               [.mk "(" [], .mk "identifier" [], .mk ")" []],
             .mk "compound_statement"
               [.mk "\x7b" [],
                .mk "while_statement"
                  [.mk "while" [],
                   .mk "parenthesized_expression"
                     [.mk "(" [],
                      .mk "binary_expression"
                        [.mk "identifier" [], .mk "||" [], .mk "identifier" []],
                      .mk ")" []],
                   .mk "compound_statement" [.mk "\x7b" [], .mk "\x7d" []]],
                .mk "\x7d" []]],
          .mk "\x7d" []]]]

/-- The directory entry carrying that file, one level below the walk root. -/
def c4Entry : Entry := ⟨["proj", "f.c"], 1, c4Tree, 1⟩

/-- C4: for a file whose content is exactly
`void f(){ if (x) { while(y || z) { } } }` the computed file complexity is 3
(1 for the `if`, 1 for the nested `while` reached through compound-statement
recursion, 1 for the `||` in the while condition), and 3 is the value stored
in the file's record by `file_walk`. -/
theorem c4_scenario_if_while_or :
    get_file_complexity c4Tree = 3
      ∧ file_walk c4Entry = Except.ok ⟨3, 1, "proj/f.c", "proj"⟩ :=
  ⟨rfl, rfl⟩

/-- C5: once a tree has been obtained the engine never fails — for every
entry passing the extension filter `get_file_complexity_opt` returns `some`
of the engine value — and when the tree has zero function-definition nodes
at the root the returned complexity is 0, not an error. -/
theorem c5_zero_functions_zero_no_error (e : Entry)
    (hv : is_file_extension_valid (Entry.filename e) = true) :
    get_file_complexity_opt e = some (get_file_complexity e.tree)
      ∧ ((∀ c ∈ e.tree.children, c.kind ≠ "function_definition") →
          get_file_complexity_opt e = some 0) := by
  refine ⟨get_file_complexity_opt_of_valid hv, fun hf => ?_⟩
  rw [get_file_complexity_opt_of_valid hv, get_file_complexity_eq]
  have : (e.tree.children.filter fun n => n.kind == "function_definition") = [] := by
    rw [List.filter_eq_nil_iff]
    intro a ha
    simp only [beq_iff_eq]
    exact hf a ha
  rw [this]
  rfl

/-- A structurally empty parse tree reaching the engine. -/
def e5 : Entry := ⟨["empty.c"], 0, .mk "translation_unit" [], 0⟩

/-- Witness for C5 at a concrete entry with zero function definitions. -/
theorem c5_witness :
    is_file_extension_valid (Entry.filename e5) = true
      ∧ get_file_complexity_opt e5 = some 0 :=
  ⟨by decide, (c5_zero_functions_zero_no_error e5 (by decide)).2 (by simp [e5])⟩

/-! ## The aggregation loop: length invariant -/

/-- All four parallel vectors have the same length. -/
def lens_eq (st : AggState) : Prop :=
  st.nlocs.length = st.labels.length ∧ st.labels.length = st.parents.length
    ∧ st.parents.length = st.ccs.length

theorem placeholder_loop_lens :
    ∀ (k start : Nat) (fp : List String) (st : AggState),
      lens_eq st → lens_eq (placeholder_loop k start fp st)
  | 0, _, _, _, h => h
  | k + 1, start, fp, st, h => by
      unfold placeholder_loop
      by_cases hc : (st.labels.contains (joinSlash (fp.drop start))) = true
      · rw [if_pos hc]
        exact placeholder_loop_lens k start fp st h
      · rw [if_neg hc]
        refine placeholder_loop_lens k start fp.dropLast _ ?_
        obtain ⟨h1, h2, h3⟩ := h
        refine ⟨?_, ?_, ?_⟩ <;> simp [h1, h2, h3]

theorem processEntry_lens (st : AggState) (e : Entry) (h : lens_eq st) :
    lens_eq (processEntry st e) := by
  unfold processEntry
  by_cases hv : (is_file_extension_valid (Entry.filename e)) = true
  · rw [if_pos hv]
    cases hw : file_walk e with
    | error err => exact h
    | ok r =>
        refine placeholder_loop_lens _ _ _ _ ?_
        obtain ⟨h1, h2, h3⟩ := h
        refine ⟨?_, ?_, ?_⟩ <;> simp [h1, h2, h3]
  · rw [if_neg hv]
    exact h

theorem runMain_lens (es : List Entry) : lens_eq (runMain es) := by
  unfold runMain
  have gen : ∀ (l : List Entry) (st : AggState), lens_eq st →
      lens_eq (l.foldl processEntry st) := by
    intro l
    induction l with
    | nil => exact fun st h => h
    | cons e rest ih =>
        intro st h
        exact ih _ (processEntry_lens st e h)
  exact gen es _ ⟨rfl, rfl, rfl⟩

/-- C6: after the traversal loop, for every input entry sequence, the four
parallel aggregation vectors (nlocs, labels, parents, ccs) have equal
length — every loop path appends to all four or to none — so the three
fatal length-equality assertions before rendering hold. -/
theorem c6_parallel_lengths_equal (es : List Entry) :
    (runMain es).nlocs.length = (runMain es).labels.length
      ∧ (runMain es).labels.length = (runMain es).parents.length
      ∧ (runMain es).parents.length = (runMain es).ccs.length :=
  runMain_lens es

/-! ## Claim C8: failed files are skipped atomically -/

theorem processEntry_of_error {e : Entry} {err : FileParserError}
    (h : file_walk e = Except.error err) (st : AggState) :
    processEntry st e = st := by
  unfold processEntry
  rw [valid_false_of_file_walk_error h]
  rfl

/-- C8: when per-file analysis fails with `BadFileExtension`, the file is
skipped atomically — that loop iteration leaves all four aggregation
vectors untouched (no partial record, no synthesized directory
placeholders) — and traversal continues with the remaining entries exactly
as if the failing entry were absent. -/
theorem c8_bad_extension_skipped (e : Entry) (err : FileParserError)
    (h : file_walk e = Except.error err) (es1 es2 : List Entry) :
    runMain (es1 ++ e :: es2) = runMain (es1 ++ es2) := by
  unfold runMain
  rw [List.foldl_append, List.foldl_append, List.foldl_cons,
      processEntry_of_error h]

/-- An entry whose file name fails the extension filter. -/
def e8 : Entry := ⟨["notes.txt"], 0, .mk "translation_unit" [], 0⟩

/-- Witness for C8 at a concrete failing entry. -/
theorem c8_witness :
    file_walk e8 = Except.error (.badFileExtension "notes.txt")
      ∧ runMain [e8] = runMain [] :=
  ⟨rfl, c8_bad_extension_skipped e8 (.badFileExtension "notes.txt") rfl [] []⟩

/-! ## Claims C9 and C10: the cmid mean -/

theorem zipRecords_map_cc :
    ∀ (ccs ns : List Nat) (ls ps : List String),
      ccs.length = ns.length → ccs.length = ls.length → ccs.length = ps.length →
      (zipRecords ccs ns ls ps).map FileRec.cc = ccs := by
  intro ccs
  induction ccs with
  | nil =>
      intro ns ls ps h1 _ _
      cases ns <;> cases ls <;> cases ps <;> rfl
  | cons c rest ih =>
      intro ns ls ps h1 h2 h3
      cases ns with
      | nil => simp at h1
      | cons n ns =>
        cases ls with
        | nil => simp at h2
        | cons l ls =>
          cases ps with
          | nil => simp at h3
          | cons p ps =>
            simp only [zipRecords, List.map_cons]
            rw [ih ns ls ps (by simpa using h1) (by simpa using h2)
                  (by simpa using h3)]

theorem zipRecords_length :
    ∀ (ccs ns : List Nat) (ls ps : List String),
      ccs.length = ns.length → ccs.length = ls.length → ccs.length = ps.length →
      (zipRecords ccs ns ls ps).length = ccs.length := by
  intro ccs ns ls ps h1 h2 h3
  have := congrArg List.length (zipRecords_map_cc ccs ns ls ps h1 h2 h3)
  simpa using this

theorem records_map_cc (st : AggState) (h : lens_eq st) :
    st.records.map FileRec.cc = st.ccs := by
  obtain ⟨h1, h2, h3⟩ := h
  exact zipRecords_map_cc _ _ _ _ (by omega) (by omega) (by omega)

theorem records_length (st : AggState) (h : lens_eq st) :
    st.records.length = st.ccs.length := by
  obtain ⟨h1, h2, h3⟩ := h
  exact zipRecords_length _ _ _ _ (by omega) (by omega) (by omega)

theorem sum_cc_cast (rs : List FileRec) (cs : List Nat)
    (h : rs.map FileRec.cc = cs) :
    (rs.map fun r => ((r.cc : ℚ))).sum
      = (cs.map fun c => ((Nat.cast c : ℚ))).sum := by
  subst h
  rw [List.map_map]
  rfl

/-- C9: the `cmid` value written to the output equals the sum of the
complexity values of all emitted records divided by the total number of
emitted records — synthesized directory placeholders carry complexity 0, so
they contribute 0 to the numerator while being counted in the
denominator. -/
theorem c9_cmid_mean_over_all_records (es : List Entry) :
    cmid (runMain es)
      = f64Div (((runMain es).records.map fun r => ((r.cc : ℚ))).sum)
          (((runMain es).records.length : ℚ)) := by
  have hl := runMain_lens es
  unfold cmid
  rw [sum_cc_cast _ _ (records_map_cc _ hl), records_length _ hl]

/-- C10: the mean-complexity division is not guarded against an empty record
set — when traversal yields zero records the divisor is the zero record
count and the division yields no well-defined number (NaN, modelled as
`none`) — while every run producing at least one record has a nonzero
divisor and a well-defined `cmid`. -/
theorem c10_cmid_guard (es : List Entry) :
    ((runMain es).records = [] → cmid (runMain es) = none)
      ∧ ((runMain es).records ≠ [] → ∃ q, cmid (runMain es) = some q) := by
  have hl := runMain_lens es
  have hlen := records_length _ hl
  constructor
  · intro h
    have hc : (runMain es).ccs = [] := by
      rw [h] at hlen
      exact List.length_eq_zero.mp hlen.symm
    unfold cmid f64Div
    rw [hc]
    simp
  · intro h
    have hc : (runMain es).ccs.length ≠ 0 := by
      intro h0
      rw [h0] at hlen
      exact h (List.length_eq_zero.mp hlen)
    unfold cmid f64Div
    rw [if_neg (by exact_mod_cast hc)]
    exact ⟨_, rfl⟩

/-- An eligible file entry one level below the walk root. -/
def e10 : Entry := ⟨["a", "g.c"], 1, .mk "translation_unit" [], 4⟩

/-- Witness for C10: the empty run has no well-defined cmid; a one-file run
does. -/
theorem c10_witness :
    cmid (runMain ([] : List Entry)) = none
      ∧ ∃ q, cmid (runMain [e10]) = some q :=
  ⟨(c10_cmid_guard []).1 rfl, (c10_cmid_guard [e10]).2 (by decide)⟩

/-! ## Path-component strings and `joinSlash` -/

/-- A well-formed path component: nonempty and slash-free (any component
produced by splitting a path on "/" is slash-free; emptiness is excluded by
the filesystem's path syntax). -/
def validComps (l : List String) : Prop :=
  ∀ s ∈ l, s ≠ "" ∧ ('/' : Char) ∉ s.data

theorem validComps_of_sublist {l₁ l₂ : List String} (hs : List.Sublist l₁ l₂)
    (h : validComps l₂) : validComps l₁ :=
  fun s hm => h s (hs.mem hm)

theorem joinSlash_cons_of_ne_nil (x : String) {xs : List String} (h : xs ≠ []) :
    joinSlash (x :: xs) = x ++ "/" ++ joinSlash xs := by
  cases xs with
  | nil => exact absurd rfl h
  | cons y ys => rfl

theorem joinSlash_data_cons_of_ne_nil (x : String) {xs : List String} (h : xs ≠ []) :
    (joinSlash (x :: xs)).data = x.data ++ '/' :: (joinSlash xs).data := by
  rw [joinSlash_cons_of_ne_nil x h, String.data_append, String.data_append]
  simp

theorem joinSlash_data_ne_nil {l : List String} (hv : validComps l) (h : l ≠ []) :
    (joinSlash l).data ≠ [] := by
  cases l with
  | nil => exact absurd rfl h
  | cons x xs =>
      cases xs with
      | nil =>
          have hx : x.data ≠ [] := by
            intro hd
            exact (hv x (by simp)).1 (String.ext hd)
          exact hx
      | cons y ys =>
          rw [joinSlash_data_cons_of_ne_nil x (by simp)]
          simp

theorem joinSlash_ne_empty {l : List String} (hv : validComps l) (h : l ≠ []) :
    joinSlash l ≠ "" := by
  intro he
  exact joinSlash_data_ne_nil hv h (congrArg String.data he)

theorem split_at_sep : ∀ {a b as bs : List Char},
    ('/' : Char) ∉ a → ('/' : Char) ∉ b →
    a ++ '/' :: as = b ++ '/' :: bs → a = b ∧ as = bs := by
  intro a
  induction a with
  | nil =>
      intro b as bs _ hb h
      cases b with
      | nil => simpa using h
      | cons y ys =>
          rw [List.nil_append, List.cons_append] at h
          injection h with h1 _
          exact absurd (h1 ▸ List.mem_cons_self y ys) hb
  | cons x xs ih =>
      intro b as bs ha hb h
      cases b with
      | nil =>
          rw [List.nil_append, List.cons_append] at h
          injection h with h1 _
          exact absurd (h1 ▸ List.mem_cons_self x xs) ha
      | cons y ys =>
          rw [List.cons_append, List.cons_append] at h
          injection h with h1 h2
          subst h1
          obtain ⟨hab, htail⟩ := ih (fun hm => ha (List.mem_cons_of_mem _ hm))
            (fun hm => hb (List.mem_cons_of_mem _ hm)) h2
          exact ⟨by rw [hab], htail⟩

theorem joinSlash_inj : ∀ (l₁ l₂ : List String), validComps l₁ → validComps l₂ →
    joinSlash l₁ = joinSlash l₂ → l₁ = l₂
  | [], [], _, _, _ => rfl
  | [], x :: xs, _, h2, h =>
      absurd (congrArg String.data h.symm) (joinSlash_data_ne_nil h2 (by simp))
  | x :: xs, [], h1, _, h =>
      absurd (congrArg String.data h) (joinSlash_data_ne_nil h1 (by simp))
  | [x], [y], _, _, h => by
      have hxy : x = y := h
      rw [hxy]
  | [x], y :: z :: zs, h1, h2, h => by
      exfalso
      have hd := congrArg String.data h
      rw [joinSlash_data_cons_of_ne_nil y (by simp)] at hd
      have : ('/' : Char) ∈ x.data := by
        rw [show (joinSlash [x]).data = x.data from rfl] at hd
        rw [hd]
        simp
      exact (h1 x (by simp)).2 this
  | x :: y :: ys, [z], h1, h2, h => by
      exfalso
      have hd := congrArg String.data h
      rw [joinSlash_data_cons_of_ne_nil x (by simp)] at hd
      have : ('/' : Char) ∈ z.data := by
        rw [show (joinSlash [z]).data = z.data from rfl] at hd
        rw [← hd]
        simp
      exact (h2 z (by simp)).2 this
  | x :: y :: ys, z :: w :: ws, h1, h2, h => by
      have hd := congrArg String.data h
      rw [joinSlash_data_cons_of_ne_nil x (by simp),
          joinSlash_data_cons_of_ne_nil z (by simp)] at hd
      obtain ⟨hh, ht⟩ := split_at_sep (h1 x (by simp)).2 (h2 z (by simp)).2 hd
      have hx : x = z := String.ext hh
      have htl : joinSlash (y :: ys) = joinSlash (w :: ws) := String.ext ht
      have := joinSlash_inj (y :: ys) (w :: ws)
        (fun s hm => h1 s (List.mem_cons_of_mem _ hm))
        (fun s hm => h2 s (List.mem_cons_of_mem _ hm)) htl
      rw [hx, this]

theorem joinSlash_dropLast_length_lt :
    ∀ (l : List String), validComps l → l ≠ [] →
      (joinSlash l.dropLast).length < (joinSlash l).length
  | [], _, h => absurd rfl h
  | [x], hv, _ => by
      have hx : x.data ≠ [] := by
        intro hd
        exact (hv x (by simp)).1 (String.ext hd)
      show ("" : String).length < x.length
      show ("" : String).data.length < x.data.length
      cases hd : x.data with
      | nil => exact absurd hd hx
      | cons c cs => simp [hd]
  | x :: y :: ys, hv, _ => by
      have ih := joinSlash_dropLast_length_lt (y :: ys)
        (fun s hm => hv s (List.mem_cons_of_mem _ hm)) (by simp)
      rw [List.dropLast_cons_of_ne_nil (by simp)]
      rw [joinSlash_cons_of_ne_nil x (show (y :: ys) ≠ [] by simp)]
      show (joinSlash (x :: (y :: ys).dropLast)).data.length
        < ((x ++ "/" ++ joinSlash (y :: ys))).data.length
      cases hd : (y :: ys).dropLast with
      | nil =>
          show (joinSlash [x]).data.length < _
          rw [String.data_append, String.data_append]
          have hy : (joinSlash (y :: ys)).data ≠ [] :=
            joinSlash_data_ne_nil (fun s hm => hv s (List.mem_cons_of_mem _ hm)) (by simp)
          cases hjy : (joinSlash (y :: ys)).data with
          | nil => exact absurd hjy hy
          | cons c cs =>
              simp only [String.length, hjy]
              have hx : (joinSlash [x]).length = x.length := rfl
              simp at hx ⊢
              omega
      | cons d ds =>
          rw [joinSlash_data_cons_of_ne_nil x (by simp), String.data_append,
              String.data_append]
          have : (joinSlash ((y :: ys).dropLast)).data.length
              < (joinSlash (y :: ys)).data.length := ih
          rw [hd] at this
          simp only [List.length_append, List.length_cons]
          simp at this ⊢
          omega

/-! ## Claim C7: the record set forms a strict tree

Ghost decoding: during a run every label is `joinSlash l` for a component
list `l` (a suffix of some processed entry's path), and the matching parent
is `joinSlash l.dropLast`.  `L` is the list of those component lists, in
push order. -/

/-- The labels and parents vectors are the `joinSlash` images of the ghost
list `L` of component lists. -/
def decodes (st : AggState) (L : List (List String)) : Prop :=
  st.labels = L.map joinSlash
    ∧ st.parents = L.map fun l => joinSlash l.dropLast

/-- Every ghost label is anchored in a processed entry's absolute path:
`pre` is the shared path prefix that labels drop. -/
def anchored (pre : List String) (ts : List (List String))
    (L : List (List String)) : Prop :=
  ∀ l ∈ L, ∃ c ∈ ts, pre ++ l <+: c

/-- Parent-closure up to one pending chain link `s`. -/
def closedExcept (L : List (List String)) (s : List String) : Prop :=
  ∀ l ∈ L, l.dropLast = [] ∨ l.dropLast ∈ L ∨ l.dropLast = s

/-- Full parent-closure: the parent of every non-root label is a label. -/
def closedL (L : List (List String)) : Prop :=
  ∀ l ∈ L, l.dropLast = [] ∨ l.dropLast ∈ L

theorem pushed_parent (pre : List String) (s' : List String) :
    (if (pre ++ s').isEmpty = true then ""
      else joinSlash ((pre ++ s').drop pre.length)) = joinSlash s' := by
  by_cases h : (pre ++ s').isEmpty = true
  · rw [if_pos h]
    rcases List.append_eq_nil.mp (List.isEmpty_iff.mp h) with ⟨_, h2⟩
    rw [h2]
    rfl
  · rw [if_neg h, List.drop_left]

theorem placeholder_loop_spec (pre : List String) (ts : List (List String)) :
    ∀ (k : Nat) (s : List String) (L : List (List String)) (st : AggState),
      decodes st L →
      L.Nodup →
      (∀ l ∈ L, l ≠ [] ∧ validComps l) →
      anchored pre ts L →
      closedExcept L s →
      validComps s →
      (∃ c ∈ ts, pre ++ s <+: c) →
      (s ∉ L → s.length = k) →
      ∃ L', decodes (placeholder_loop k pre.length (pre ++ s) st) L'
        ∧ L'.Nodup ∧ (∀ l ∈ L', l ≠ [] ∧ validComps l)
        ∧ anchored pre ts L' ∧ closedL L' := by
  intro k
  induction k with
  | zero =>
      intro s L st hd hN hwf ha hce hvs hanc hfuel
      refine ⟨L, hd, hN, hwf, ha, fun l hl => ?_⟩
      rcases hce l hl with h | h | h
      · exact Or.inl h
      · exact Or.inr h
      · by_cases hs : s ∈ L
        · exact Or.inr (h ▸ hs)
        · have hnil : s = [] := List.length_eq_zero.mp (hfuel hs)
          exact Or.inl (h.trans hnil)
  | succ k ih =>
      intro s L st hd hN hwf ha hce hvs hanc hfuel
      have hdrop : (pre ++ s).drop pre.length = s := List.drop_left pre s
      by_cases hmem : s ∈ L
      · have hcond : st.labels.contains (joinSlash ((pre ++ s).drop pre.length)) = true := by
          rw [hdrop, hd.1]
          exact List.elem_iff.mpr (List.mem_map_of_mem joinSlash hmem)
        simp only [placeholder_loop]
        rw [if_pos hcond]
        exact ih s L st hd hN hwf ha hce hvs hanc fun h => absurd hmem h
      · have hs_len : s.length = k + 1 := hfuel hmem
        have hsne : s ≠ [] := by
          intro h0
          rw [h0] at hs_len
          exact Nat.noConfusion hs_len
        have hnotmem : joinSlash s ∉ L.map joinSlash := by
          intro hm
          rcases List.mem_map.mp hm with ⟨l, hlL, hEq⟩
          exact hmem (joinSlash_inj l s (hwf l hlL).2 hvs hEq ▸ hlL)
        have hcond : st.labels.contains (joinSlash ((pre ++ s).drop pre.length)) = false := by
          rw [hdrop, hd.1]
          cases hc : (L.map joinSlash).contains (joinSlash s) with
          | false => rfl
          | true => exact absurd (List.elem_iff.mp hc) hnotmem
        simp only [placeholder_loop]
        rw [if_neg (by rw [hcond]; exact Bool.false_ne_true)]
        rw [List.dropLast_append_of_ne_nil _ hsne]
        have hprefdl : pre ++ s.dropLast <+: pre ++ s :=
          (List.prefix_append_right_inj pre).mpr ( List.dropLast_prefix s)
        rcases hanc with ⟨c, hcts, hpc⟩
        refine ih s.dropLast (L ++ [s])
          ⟨st.nlocs ++ [0],
           st.labels ++ [joinSlash ((pre ++ s).drop pre.length)],
           st.parents ++ [if (pre ++ s.dropLast).isEmpty = true then ""
                          else joinSlash ((pre ++ s.dropLast).drop pre.length)],
           st.ccs ++ [0]⟩
          ⟨?_, ?_⟩ ?_ ?_ ?_ ?_ ?_ ?_ ?_
        · rw [hdrop, hd.1, List.map_append]
          rfl
        · rw [pushed_parent pre s.dropLast, hd.2, List.map_append]
          rfl
        · rw [List.nodup_append]
          refine ⟨hN, List.nodup_singleton s, fun a haL haS => ?_⟩
          exact hmem (List.mem_singleton.mp haS ▸ haL)
        · intro l hl
          rcases List.mem_append.mp hl with h | h
          · exact hwf l h
          · rw [List.mem_singleton.mp h]
            exact ⟨hsne, hvs⟩
        · intro l hl
          rcases List.mem_append.mp hl with h | h
          · exact ha l h
          · rw [List.mem_singleton.mp h]
            exact ⟨c, hcts, hpc⟩
        · intro l hl
          rcases List.mem_append.mp hl with h | h
          · rcases hce l h with h2 | h2 | h2
            · exact Or.inl h2
            · exact Or.inr (Or.inl (List.mem_append_left _ h2))
            · exact Or.inr (Or.inl (h2 ▸ List.mem_append_right _ (List.mem_singleton.mpr rfl)))
          · rw [List.mem_singleton.mp h]
            exact Or.inr (Or.inr rfl)
        · exact validComps_of_sublist ( List.dropLast_prefix s).sublist hvs
        · exact ⟨c, hcts, hprefdl.trans hpc⟩
        · intro _
          rw [List.length_dropLast, hs_len]
          omega

theorem processEntry_invalid {e : Entry}
    (h : is_file_extension_valid (Entry.filename e) = false) (st : AggState) :
    processEntry st e = st := by
  unfold processEntry
  rw [h]
  rfl

theorem processEntry_of_ok {e : Entry} {r : FileRec}
    (hv : is_file_extension_valid (Entry.filename e) = true)
    (hw : file_walk e = Except.ok r) (st : AggState) :
    processEntry st e
      = placeholder_loop e.depth (e.comps.length - e.depth - 1) e.comps.dropLast
          ⟨st.nlocs ++ [r.nloc], st.labels ++ [r.label],
           st.parents ++ [r.parent], st.ccs ++ [r.cc]⟩ := by
  unfold processEntry
  rw [if_pos hv, hw]

theorem processEntry_spec (pre : List String) (ts : List (List String))
    (st : AggState) (L : List (List String)) (e : Entry) (t : List String)
    (hd : decodes st L) (hN : L.Nodup)
    (hwf : ∀ l ∈ L, l ≠ [] ∧ validComps l)
    (ha : anchored pre ts L) (hcl : closedL L)
    (hv : is_file_extension_valid (Entry.filename e) = true)
    (hcomps : e.comps = pre ++ t) (hlen : t.length = e.depth + 1)
    (hvc : validComps t)
    (hcross : ∀ c ∈ ts, ¬ e.comps <+: c ∧ ¬ c <+: e.comps) :
    ∃ L', decodes (processEntry st e) L' ∧ L'.Nodup
      ∧ (∀ l ∈ L', l ≠ [] ∧ validComps l)
      ∧ anchored pre (ts ++ [e.comps]) L' ∧ closedL L' := by
  have htne : t ≠ [] := by
    intro h0
    rw [h0] at hlen
    exact Nat.noConfusion hlen
  have hstart : e.comps.length - e.depth - 1 = pre.length := by
    rw [hcomps, List.length_append, hlen]
    omega
  have hlabel : e.comps.drop (e.comps.length - e.depth - 1) = t := by
    rw [hstart, hcomps, List.drop_left]
  have hdl : e.comps.dropLast = pre ++ t.dropLast := by
    rw [hcomps, List.dropLast_append_of_ne_nil _ htne]
  have hparent : e.comps.dropLast.drop (e.comps.length - e.depth - 1) = t.dropLast := by
    rw [hstart, hdl, List.drop_left]
  have htnotinL : t ∉ L := by
    intro hmem
    rcases ha t hmem with ⟨c, hcts, hp⟩
    rw [← hcomps] at hp
    exact (hcross c hcts).1 hp
  rw [processEntry_of_ok hv (file_walk_of_valid hv) st]
  dsimp only
  rw [hlabel, hparent, hstart, hdl]
  have hpredl : pre ++ t.dropLast <+: pre ++ t :=
    (List.prefix_append_right_inj pre).mpr ( List.dropLast_prefix t)
  refine placeholder_loop_spec pre (ts ++ [e.comps]) e.depth t.dropLast (L ++ [t])
    ⟨st.nlocs ++ [e.nloc],
     st.labels ++ [joinSlash t],
     st.parents ++ [joinSlash t.dropLast],
     st.ccs ++ [get_file_complexity e.tree]⟩
    ⟨?_, ?_⟩ ?_ ?_ ?_ ?_ ?_ ?_ ?_
  · rw [hd.1, List.map_append]
    rfl
  · rw [hd.2, List.map_append]
    rfl
  · rw [List.nodup_append]
    exact ⟨hN, List.nodup_singleton t, fun a haL haS =>
      htnotinL (List.mem_singleton.mp haS ▸ haL)⟩
  · intro l hl
    rcases List.mem_append.mp hl with h | h
    · exact hwf l h
    · rw [List.mem_singleton.mp h]
      exact ⟨htne, hvc⟩
  · intro l hl
    rcases List.mem_append.mp hl with h | h
    · rcases ha l h with ⟨c, hcts, hp⟩
      exact ⟨c, List.mem_append_left _ hcts, hp⟩
    · rw [List.mem_singleton.mp h]
      exact ⟨e.comps, List.mem_append_right _ (List.mem_singleton.mpr rfl),
        hcomps ▸ List.prefix_rfl⟩
  · intro l hl
    rcases List.mem_append.mp hl with h | h
    · rcases hcl l h with h2 | h2
      · exact Or.inl h2
      · exact Or.inr (Or.inl (List.mem_append_left _ h2))
    · rw [List.mem_singleton.mp h]
      exact Or.inr (Or.inr rfl)
  · exact validComps_of_sublist ( List.dropLast_prefix t).sublist hvc
  · exact ⟨e.comps, List.mem_append_right _ (List.mem_singleton.mpr rfl),
      hcomps ▸ hpredl⟩
  · intro _
    rw [List.length_dropLast, hlen]
    omega

/-- Two traversal entries are path-compatible: if both pass the extension
filter then neither absolute path is a prefix of the other (on a real
filesystem two distinct walked files can never be nested paths). -/
def crossFree (a b : Entry) : Prop :=
  is_file_extension_valid (Entry.filename a) = true →
    is_file_extension_valid (Entry.filename b) = true →
      ¬ a.comps <+: b.comps ∧ ¬ b.comps <+: a.comps

theorem runMain_go (pre : List String) :
    ∀ (es : List Entry) (st : AggState) (L ts : List (List String)),
      decodes st L → L.Nodup → (∀ l ∈ L, l ≠ [] ∧ validComps l) →
      anchored pre ts L → closedL L →
      (∀ e ∈ es, is_file_extension_valid (Entry.filename e) = true →
        ∃ t, e.comps = pre ++ t ∧ t.length = e.depth + 1 ∧ validComps t) →
      List.Pairwise crossFree es →
      (∀ e ∈ es, is_file_extension_valid (Entry.filename e) = true →
        ∀ c ∈ ts, ¬ e.comps <+: c ∧ ¬ c <+: e.comps) →
      ∃ L' ts', decodes (es.foldl processEntry st) L' ∧ L'.Nodup
        ∧ (∀ l ∈ L', l ≠ [] ∧ validComps l) ∧ anchored pre ts' L' ∧ closedL L'
  | [], _, L, ts, hdec, hN, hwf, ha, hcl, _, _, _ =>
      ⟨L, ts, hdec, hN, hwf, ha, hcl⟩
  | e :: rest, st, L, ts, hdec, hN, hwf, ha, hcl, hok, hpw, hcross => by
      rw [List.foldl_cons]
      by_cases hv : is_file_extension_valid (Entry.filename e) = true
      · rcases hok e (List.mem_cons_self e rest) hv with ⟨t, hcomps, hlen, hvc⟩
        rcases processEntry_spec pre ts st L e t hdec hN hwf ha hcl hv hcomps hlen hvc
            (hcross e (List.mem_cons_self e rest) hv) with
          ⟨L2, hdec2, hN2, hwf2, ha2, hcl2⟩
        exact runMain_go pre rest (processEntry st e) L2 (ts ++ [e.comps])
          hdec2 hN2 hwf2 ha2 hcl2
          (fun e' he' => hok e' (List.mem_cons_of_mem e he'))
          (List.pairwise_cons.mp hpw).2
          (fun e' he' hv' c hc => by
            rcases List.mem_append.mp hc with h | h
            · exact hcross e' (List.mem_cons_of_mem e he') hv' c h
            · rw [List.mem_singleton.mp h]
              have hcf := (List.pairwise_cons.mp hpw).1 e' he' hv hv'
              exact ⟨hcf.2, hcf.1⟩)
      · have hvf : is_file_extension_valid (Entry.filename e) = false := by
          cases hb : is_file_extension_valid (Entry.filename e)
          · rfl
          · exact absurd hb hv
        rw [processEntry_invalid hvf st]
        exact runMain_go pre rest st L ts hdec hN hwf ha hcl
          (fun e' he' => hok e' (List.mem_cons_of_mem e he'))
          (List.pairwise_cons.mp hpw).2
          (fun e' he' => hcross e' (List.mem_cons_of_mem e he'))

/-- C7: in the final record set of every run (over filesystem-shaped
traversals: each eligible entry's path is the shared root prefix `pre` plus
`depth + 1` well-formed components, and no walked path is a prefix of
another), labels are unique, and for every record whose parent is not the
empty string there is exactly one other record whose label equals that
parent (its label is strictly shorter than the record's own label, so the
matching record is a different one and parent links are acyclic): the
records form a strict tree rooted at the empty-string parent. -/
theorem c7_label_tree_invariant (pre : List String) (es : List Entry)
    (H1 : ∀ e ∈ es, is_file_extension_valid (Entry.filename e) = true →
      ∃ t, e.comps = pre ++ t ∧ t.length = e.depth + 1 ∧ validComps t)
    (H2 : List.Pairwise crossFree es) :
    (runMain es).labels.Nodup
      ∧ ∀ pr ∈ (runMain es).labels.zip (runMain es).parents,
          pr.2.length < pr.1.length
            ∧ (pr.2 ≠ "" → (runMain es).labels.count pr.2 = 1) := by
  unfold runMain
  rcases runMain_go pre es ⟨[], [], [], []⟩ [] [] ⟨rfl, rfl⟩ List.nodup_nil
      (fun l hl => absurd hl (List.not_mem_nil l))
      (fun l hl => absurd hl (List.not_mem_nil l))
      (fun l hl => absurd hl (List.not_mem_nil l)) H1 H2
      (fun _ _ _ c hc => absurd hc (List.not_mem_nil c)) with
    ⟨L, ts, hdec, hN, hwf, ha, hcl⟩
  rw [hdec.1, hdec.2]
  have hlblN : (L.map joinSlash).Nodup :=
    hN.map_on fun x hx y hy hEq =>
      joinSlash_inj x y (hwf x hx).2 (hwf y hy).2 hEq
  refine ⟨hlblN, ?_⟩
  rw [List.zip_map' joinSlash (fun l => joinSlash l.dropLast) L]
  intro pr hpr
  rcases List.mem_map.mp hpr with ⟨l, hlL, rfl⟩
  constructor
  · exact joinSlash_dropLast_length_lt l (hwf l hlL).2 (hwf l hlL).1
  · intro hne
    have hdlne : l.dropLast ≠ [] := by
      intro h0
      apply hne
      show joinSlash l.dropLast = ""
      rw [h0]
      rfl
    rcases hcl l hlL with h | h
    · exact absurd h hdlne
    · exact List.count_eq_one_of_mem hlblN (List.mem_map_of_mem joinSlash h)

/-- A concrete entry for the C7 witness: file `w.c` one level below the walk
root `home/prj`. -/
def e7 : Entry := ⟨["home", "prj", "w.c"], 1, .mk "translation_unit" [], 3⟩

/-- Witness for C7 at a concrete one-file run. -/
theorem c7_witness :
    (runMain [e7]).labels.Nodup
      ∧ ∀ pr ∈ (runMain [e7]).labels.zip (runMain [e7]).parents,
          pr.2.length < pr.1.length
            ∧ (pr.2 ≠ "" → (runMain [e7]).labels.count pr.2 = 1) :=
  c7_label_tree_invariant ["home"] [e7]
    (fun e he _ => by
      rw [List.mem_singleton.mp he]
      exact ⟨["prj", "w.c"], rfl, rfl, by unfold validComps; decide⟩)
    (by simp)

end Cyclo
